import Mathlib

/-!
Verification of the incremental target-labeling engine of fuzzy-motion
(denops/fuzzy-motion/main.ts and autoload/fuzzy_motion.vim).

The embedding below translates the source into Lean:
* `getTarget` — the aggregation / dedup / label-assignment pipeline
  (main.ts, `getTarget`), with the module-level mutable `targetCache`
  made an explicit argument and an explicit component of the returned pair.
* `dispatchCode` / `executeStep` — one iteration of the interactive loop of
  the `execute` dispatcher (main.ts, `denops.dispatcher.execute`).
* `loopRun` / `executeRun` — the full loop over a finite list of input
  events, producing a trace of editor-facing effects; the `try/catch/finally`
  of the source is translated as trace concatenation with a cleanup suffix.

The two matcher back-ends (fzf.ts / kensaku.ts) are external collaborators:
they appear as opaque function parameters of `Config`.
-/

namespace FuzzyMotion

/-- Position of a word in the buffer (`pos` field of `Word` in types.ts,
as used by main.ts): 1-based line number and 1-based byte column. -/
structure Pos where
  line : Nat
  col : Nat
deriving DecidableEq

/-- `Word` (types.ts, as used by main.ts): a candidate word and its position. -/
structure Word where
  text : String
  pos : Pos
deriving DecidableEq

/-- `Result` (types.ts, as used by main.ts): one matcher hit. `item` is the
matched word, `start`/`end` the matched byte range within `item.text`,
`score` the matcher score (carried opaquely; no claim computes with it). -/
structure Result where
  item : Word
  start : Nat
  «end» : Nat
  score : Int
deriving DecidableEq

/-- `Target` (types.ts, as used by main.ts): a labeled jumpable match. -/
structure Target where
  text : String
  start : Nat
  «end» : Nat
  pos : Pos
  score : Int
  char : Char
deriving DecidableEq

/-- Effective match position of a `Result`: `(pos.line, pos.col + start)`,
the key used by the dedup scan in `getTarget`. -/
def effR (r : Result) : Nat × Nat := (r.item.pos.line, r.item.pos.col + r.start)

/-- Effective match position of a `Target`. -/
def effT (t : Target) : Nat × Nat := (t.pos.line, t.pos.col + t.start)

/-- Identity triple of a `Result`: `(pos.line, pos.col, start)`. -/
def tripleR (r : Result) : Nat × Nat × Nat := (r.item.pos.line, r.item.pos.col, r.start)

/-- Identity triple of a `Target`, the Label Cache lookup key. -/
def tripleT (t : Target) : Nat × Nat × Nat := (t.pos.line, t.pos.col, t.start)

/-- The duplicate test inside `getTarget`'s `reduce`:
`v.item.pos.line === cur.item.pos.line &&
 v.item.pos.col + v.start === cur.item.pos.col + cur.start`. -/
def sameEff (v cur : Result) : Bool :=
  v.item.pos.line == cur.item.pos.line &&
    v.item.pos.col + v.start == cur.item.pos.col + cur.start

/-- One step of the `reduce` in `getTarget`: keep `acc` if some already-kept
entry has the same effective position as `cur`, else append `cur`. -/
def dedupStep (acc : List Result) (cur : Result) : List Result :=
  if (acc.find? (fun v => sameEff v cur)).isSome then acc else acc ++ [cur]

/-- The dedup pass of `getTarget`: `[...fzfResult, ...kensakuResults].reduce(...)`. -/
def dedup (rs : List Result) : List Result := rs.foldl dedupStep []

/-- The Label Cache lookup predicate inside `getTarget`:
`cache.pos.line === entry.item.pos.line && cache.pos.col === entry.item.pos.col
 && cache.start === entry.start`. -/
def matchesCache (entry : Result) (cache : Target) : Bool :=
  cache.pos.line == entry.item.pos.line &&
    cache.pos.col == entry.item.pos.col && cache.start == entry.start

/-- Body of the inner `while` of `getTarget`, with the explicit fuel
`labels.length - labelIndex` (the exact number of steps the loop can still
take); structural recursion on the fuel keeps the function kernel-reducible. -/
def skipUsedAux (cachedLabels : List Char) (labels : List Char) : Nat → Nat → Nat
  | 0, labelIndex => labelIndex
  | fuel + 1, labelIndex =>
    if h : labelIndex < labels.length then
      if labels.get ⟨labelIndex, h⟩ ∈ cachedLabels then
        skipUsedAux cachedLabels labels fuel (labelIndex + 1)
      else labelIndex
    else labelIndex

/-- The inner `while` of `getTarget`:
`while (cachedLabels.includes(labels[labelIndex]) && labelIndex < labels.length)
   labelIndex++`.
(When `labelIndex` reaches `labels.length`, `labels[labelIndex]` is `undefined`
in the source and the `includes` test is false, so the loop exits; the
recursion stops at the same index.) -/
def skipUsed (cachedLabels : List Char) (labels : List Char) (labelIndex : Nat) : Nat :=
  skipUsedAux cachedLabels labels (labels.length - labelIndex) labelIndex

/-- The Target pushed for a cache hit: `{...cachedTarget, text, start, end,
pos, score}` — the `char` comes from the cached target, everything else from
the fresh entry. -/
def carryTarget (cachedTarget : Target) (entry : Result) : Target :=
  { cachedTarget with
      text := entry.item.text, start := entry.start, «end» := entry.«end»,
      pos := entry.item.pos, score := entry.score }

/-- The Target pushed for a fresh label assignment. -/
def freshTarget (entry : Result) (c : Char) : Target :=
  { text := entry.item.text, start := entry.start, «end» := entry.«end»,
    pos := entry.item.pos, score := entry.score, char := c }

/-- The `for (const entry of results)` loop of `getTarget`, with the mutable
`labeledTargets`, `cachedLabels` and `labelIndex` threaded explicitly. -/
def assignLoop (targetCache : List Target) (labels? : Option (List Char)) :
    List Result → List Target → List Char → Nat → List Target
  | [], labeledTargets, _, _ => labeledTargets
  | entry :: rest, labeledTargets, cachedLabels, labelIndex =>
    match targetCache.find? (fun cache => matchesCache entry cache) with
    | some cachedTarget =>
        assignLoop targetCache labels? rest
          (labeledTargets ++ [carryTarget cachedTarget entry]) cachedLabels labelIndex
    | none =>
        match labels? with
        | some labels =>
            if labelIndex < labels.length then
              let j := skipUsed cachedLabels labels labelIndex
              if h : j < labels.length then
                assignLoop targetCache labels? rest
                  (labeledTargets ++ [freshTarget entry (labels.get ⟨j, h⟩)])
                  (cachedLabels ++ [labels.get ⟨j, h⟩]) j
              else assignLoop targetCache labels? rest labeledTargets cachedLabels j
            else assignLoop targetCache labels? rest labeledTargets cachedLabels labelIndex
        | none => assignLoop targetCache labels? rest labeledTargets cachedLabels labelIndex

/-- Session configuration read from editor globals by the source: the two
matcher back-ends (external collaborators, opaque functions of
`(input, words)`), the enabled matcher name list `g:fuzzy_motion_matchers`,
the label alphabet `g:fuzzy_motion_labels` (single-character labels), and the
auto-jump flag `g:fuzzy_motion_auto_jump`. -/
structure Config where
  fzf : String → List Word → List Result
  kensaku : String → List Word → List Result
  matchers : List String
  labels : List Char
  autoJump : Bool

/-- `getTarget` from main.ts. The module-level mutable `targetCache` is an
explicit argument; the function returns `(labeledTargets, new targetCache)`.
On empty input it returns `[]` without touching the cache (the early
`return []` precedes the `targetCache = labeledTargets` write). -/
def getTarget (conf : Config) (words : List Word) (input : String)
    (labels? : Option (List Char)) (targetCache : List Target) :
    List Target × List Target :=
  if input = "" then ([], targetCache)
  else
    let fzfResult := if "fzf" ∈ conf.matchers then conf.fzf input words else []
    let kensakuResults := if "kensaku" ∈ conf.matchers then conf.kensaku input words else []
    let results := dedup (fzfResult ++ kensakuResults)
    let labeledTargets :=
      assignLoop targetCache labels? results [] (targetCache.map (fun t => t.char)) 0
    (labeledTargets, labeledTargets)

/-- The loop-carried state of the `execute` dispatcher: the typed `input`
string and the module-level `targetCache`. -/
structure LoopState where
  input : String
  cache : List Target
deriving DecidableEq

/-- Result of one iteration of the `while (true)` loop: continue with a new
state, exit jumping to a target (`jumpTarget` then `break`/auto-jump), or
exit without a jump (`break` on Escape / `return` on Enter with no target). -/
inductive StepRes where
  | cont (s : LoopState)
  | exitJump (t : Target)
  | exitNoJump
deriving DecidableEq

/-- `input.slice(0, -1)`: drop the last character, empty string unchanged. -/
def strDropLast (s : String) : String := ⟨s.data.dropLast⟩

/-- The `if/else if` dispatch chain of the `execute` loop body, after the
Enter substitution has (possibly) replaced `code`. `targets` and `cache1`
are the result and cache written by the top-of-cycle `getTarget` call. -/
def dispatchCode (conf : Config) (words : List Word) (s : LoopState)
    (targets cache1 : List Target) (code : Nat) : StepRes :=
  if code = 27 then .exitNoJump
  else if (conf.labels.find? (fun label => label.toNat == code)).isSome then
    match targets.find? (fun t => t.char == Char.ofNat code) with
    | some target => .exitJump target
    | none => .cont ⟨s.input, cache1⟩
  else if code = 128 ∨ code = 8 then .cont ⟨strDropLast s.input, []⟩
  else if code = 23 then .cont ⟨"", []⟩
  else if 32 ≤ code ∧ code ≤ 126 then
    let p := getTarget conf words (s.input.push (Char.ofNat code)) (some conf.labels) cache1
    match conf.autoJump, p.1 with
    | true, [t] => .exitJump t
    | _, _ => .cont ⟨s.input.push (Char.ofNat code), p.2⟩
  else .cont ⟨s.input, cache1⟩

/-- One full iteration of the `execute` loop: the top-of-cycle `getTarget`
recomputation, the Enter substitution (`code = targets[0].char.charCodeAt(0)`,
or `return` when the target list is empty), then the dispatch chain. -/
def executeStep (conf : Config) (words : List Word) (s : LoopState) (code : Nat) : StepRes :=
  let p := getTarget conf words s.input (some conf.labels) s.cache
  if code = 13 then
    match p.1 with
    | [] => .exitNoJump
    | t :: _ => dispatchCode conf words s p.1 p.2 t.char.toNat
  else dispatchCode conf words s p.1 p.2 code

/-- One input event delivered to the blocking `fuzzy_motion#_getchar` read:
either a key code, or an exception raised inside the loop body. -/
inductive Event where
  | key (code : Nat)
  | raise
deriving DecidableEq

/-- Editor-facing effects of the `execute` dispatcher, in program order. -/
inductive Eff where
  | shade
  | echoPrompt (input : String)
  | unmountAll
  | mount (targets : List Target)
  | redrawCycle
  | jump (t : Target)
  | logError
  | deleteShade
  | echoEmpty
  | redrawFinal
deriving DecidableEq

/-- How a run over a finite event list ended: the loop terminated normally
(`break`/`return`), an exception was raised (caught by the `catch`), or the
event list was exhausted while the loop was still blocked on input. -/
inductive Outcome where
  | finished
  | errored
  | outOfEvents
deriving DecidableEq

/-- The `while (true)` loop of `execute` over a finite event list, emitting
the per-cycle effects `echo prompt; unmountTargets; mount; redraw` and the
jump effect. -/
def loopRun (conf : Config) (words : List Word) :
    List Event → LoopState → List Eff × Outcome
  | [], _ => ([], .outOfEvents)
  | ev :: rest, s =>
    let p := getTarget conf words s.input (some conf.labels) s.cache
    let cycleEffs := [Eff.echoPrompt s.input, Eff.unmountAll, Eff.mount p.1, Eff.redrawCycle]
    match ev with
    | .raise => (cycleEffs, .errored)
    | .key code =>
      match executeStep conf words s code with
      | .cont s2 =>
          let q := loopRun conf words rest s2
          (cycleEffs ++ q.1, q.2)
      | .exitJump t => (cycleEffs ++ [Eff.jump t], .finished)
      | .exitNoJump => (cycleEffs, .finished)

/-- The `finally` block of `execute`: delete the viewport shading matches,
unmount all labels/highlights, clear the status prompt, force a redraw. -/
def cleanupEffs : List Eff := [.deleteShade, .unmountAll, .echoEmpty, .redrawFinal]

/-- The whole `execute` dispatcher: reset `targetCache`, shade the viewport,
run the loop from `input = ""`, and translate `try/catch/finally` into the
effect trace — the catch appends `logError`, the finally appends
`cleanupEffs`; if the event list runs out the loop is still blocked inside
the `try`, so no cleanup has been emitted yet. -/
def executeRun (conf : Config) (words : List Word) (events : List Event) :
    List Eff × Outcome :=
  let r := loopRun conf words events ⟨"", []⟩
  match r.2 with
  | .outOfEvents => (Eff.shade :: r.1, .outOfEvents)
  | .errored => (Eff.shade :: (r.1 ++ Eff.logError :: cleanupEffs), .errored)
  | .finished => (Eff.shade :: (r.1 ++ cleanupEffs), .finished)

/-- First-occurrence-wins deduplication, written the way the spec words it:
keep each entry and drop every later entry with the same effective match
position. Proved below to coincide with the source's accumulator-based
`dedup` (`dedup_eq_keepFirst`). -/
def keepFirst : List Result → List Result
  | [] => []
  | r :: rs => r :: keepFirst (rs.filter (fun x => !(sameEff x r)))
termination_by l => l.length
decreasing_by
  simp only [List.length_cons]
  exact Nat.lt_succ_of_le (List.length_filter_le _ _)

/-- Modelled from the spec: the aggregation as the claim words it — the
enabled matchers' outputs concatenated in the order in which their names
appear in the configured matcher list (`configured priority order`), then the
same dedup and label assignment. Used only to compare against the source's
`getTarget`, which always places fzf results before kensaku results. -/
def getTargetSpecOrdered (conf : Config) (words : List Word) (input : String)
    (labels? : Option (List Char)) (targetCache : List Target) :
    List Target × List Target :=
  if input = "" then ([], targetCache)
  else
    let results := dedup (List.flatten (conf.matchers.map (fun m =>
      if m = "fzf" then conf.fzf input words
      else if m = "kensaku" then conf.kensaku input words
      else [])))
    let labeledTargets :=
      assignLoop targetCache labels? results [] (targetCache.map (fun t => t.char)) 0
    (labeledTargets, labeledTargets)

/-! ### Basic lemmas about the dedup pass -/

lemma sameEff_iff {v c : Result} : sameEff v c = true ↔ effR v = effR c := by
  simp [sameEff, effR, Prod.ext_iff]

lemma sameEff_comm (a b : Result) : sameEff a b = sameEff b a := by
  by_cases h : effR a = effR b
  · rw [sameEff_iff.mpr h, sameEff_iff.mpr h.symm]
  · have h1 : sameEff a b = false := by
      rcases hx : sameEff a b with _ | _
      · rfl
      · exact absurd (sameEff_iff.mp hx) h
    have h2 : sameEff b a = false := by
      rcases hx : sameEff b a with _ | _
      · rfl
      · exact absurd (sameEff_iff.mp hx).symm h
    rw [h1, h2]

lemma matchesCache_iff {r : Result} {t : Target} :
    matchesCache r t = true ↔ tripleT t = tripleR r := by
  simp [matchesCache, tripleT, tripleR, Prod.ext_iff, and_assoc]

@[simp] lemma effT_carry (c : Target) (r : Result) : effT (carryTarget c r) = effR r := rfl

@[simp] lemma tripleT_carry (c : Target) (r : Result) :
    tripleT (carryTarget c r) = tripleR r := rfl

@[simp] lemma char_carry (c : Target) (r : Result) : (carryTarget c r).char = c.char := rfl

@[simp] lemma effT_fresh (r : Result) (ch : Char) : effT (freshTarget r ch) = effR r := rfl

@[simp] lemma tripleT_fresh (r : Result) (ch : Char) :
    tripleT (freshTarget r ch) = tripleR r := rfl

@[simp] lemma char_fresh (r : Result) (ch : Char) : (freshTarget r ch).char = ch := rfl

lemma tripleR_eq_effR {a b : Result} (h : tripleR a = tripleR b) : effR a = effR b := by
  simp only [tripleR, Prod.ext_iff] at h
  simp only [effR, Prod.ext_iff, h.1, h.2.1, h.2.2, and_self]

lemma tripleT_eq_effT {a b : Target} (h : tripleT a = tripleT b) : effT a = effT b := by
  simp only [tripleT, Prod.ext_iff] at h
  simp only [effT, Prod.ext_iff, h.1, h.2.1, h.2.2, and_self]

/-- The accumulator-based `reduce` keeps pairwise-distinct effective
positions. -/
lemma foldl_dedupStep_pairwise (rs : List Result) :
    ∀ acc : List Result, acc.Pairwise (fun a b => effR a ≠ effR b) →
      (rs.foldl dedupStep acc).Pairwise (fun a b => effR a ≠ effR b) := by
  induction rs with
  | nil => exact fun acc h => h
  | cons cur rest ih =>
    intro acc h
    rw [List.foldl_cons]
    apply ih
    unfold dedupStep
    rcases hf : (acc.find? (fun v => sameEff v cur)).isSome with _ | _
    · simp only [hf, Bool.false_eq_true, if_false]
      rw [List.pairwise_append]
      refine ⟨h, List.pairwise_singleton _ _, ?_⟩
      intro a ha b hb
      rw [List.mem_singleton] at hb
      have hn : acc.find? (fun v => sameEff v cur) = none := by
        rcases ho : acc.find? (fun v => sameEff v cur) with _ | x
        · rfl
        · rw [ho] at hf
          simp at hf
      have hx := List.find?_eq_none.mp hn a ha
      intro hEff
      rw [hb] at hEff
      exact hx (sameEff_iff.mpr hEff)
    · simp only [hf, if_true]
      exact h

lemma dedup_pairwise (rs : List Result) :
    (dedup rs).Pairwise (fun a b => effR a ≠ effR b) :=
  foldl_dedupStep_pairwise rs [] (List.Pairwise.nil)

lemma find?_isSome_eq_any (l : List α) (p : α → Bool) : (l.find? p).isSome = l.any p := by
  induction l with
  | nil => rfl
  | cons a l ih =>
    rw [List.find?_cons, List.any_cons]
    rcases hp : p a with _ | _
    · simp [hp, ih]
    · simp [hp]

/-- On a list whose effective positions are already pairwise distinct, the
dedup pass is the identity. -/
lemma foldl_dedupStep_eq_append (rs : List Result) :
    ∀ acc : List Result, rs.Pairwise (fun a b => effR a ≠ effR b) →
      (∀ a ∈ acc, ∀ r ∈ rs, effR a ≠ effR r) →
      rs.foldl dedupStep acc = acc ++ rs := by
  induction rs with
  | nil => intro acc _ _; simp
  | cons cur rest ih =>
    intro acc hp hd
    rw [List.foldl_cons]
    have hnone : acc.find? (fun v => sameEff v cur) = none := by
      rw [List.find?_eq_none]
      intro x hx hs
      exact hd x hx cur (List.mem_cons_self _ _) (sameEff_iff.mp hs)
    have hstep : dedupStep acc cur = acc ++ [cur] := by
      unfold dedupStep
      rw [hnone]
      rfl
    rw [hstep, ih (acc ++ [cur]) (List.Pairwise.of_cons hp)]
    · rw [List.append_assoc, List.singleton_append]
    · intro a ha r hr
      rcases List.mem_append.mp ha with ha2 | ha2
      · exact hd a ha2 r (List.mem_cons_of_mem _ hr)
      · rw [List.mem_singleton] at ha2
        rw [ha2]
        exact (List.pairwise_cons.mp hp).1 r hr

lemma dedup_eq_self {rs : List Result} (h : rs.Pairwise (fun a b => effR a ≠ effR b)) :
    dedup rs = rs := by
  have := foldl_dedupStep_eq_append rs [] h (by intro a ha; cases ha)
  simpa [dedup] using this

lemma dedupStep_pos {acc : List Result} {cur : Result}
    (h : (acc.find? (fun v => sameEff v cur)).isSome = true) : dedupStep acc cur = acc := by
  unfold dedupStep
  rw [h]
  rfl

lemma dedupStep_neg {acc : List Result} {cur : Result}
    (h : (acc.find? (fun v => sameEff v cur)).isSome = false) :
    dedupStep acc cur = acc ++ [cur] := by
  unfold dedupStep
  rw [h]
  rfl

/-- The dedup pass preserves the order of the concatenated list: its output
is a sublist (no re-sorting). -/
lemma foldl_dedupStep_sublist (rs : List Result) :
    ∀ acc : List Result, List.Sublist (rs.foldl dedupStep acc) (acc ++ rs) := by
  induction rs with
  | nil => intro acc; simp
  | cons cur rest ih =>
    intro acc
    rw [List.foldl_cons]
    rcases hf : (acc.find? (fun v => sameEff v cur)).isSome with _ | _
    · rw [dedupStep_neg hf]
      have := ih (acc ++ [cur])
      rwa [List.append_assoc, List.singleton_append] at this
    · rw [dedupStep_pos hf]
      exact (ih acc).trans (List.Sublist.append_left (List.sublist_cons_self cur rest) acc)

lemma dedup_sublist (rs : List Result) : List.Sublist (dedup rs) rs := by
  have := foldl_dedupStep_sublist rs []
  simpa [dedup] using this

lemma keepFirst_cons (r : Result) (rs : List Result) :
    keepFirst (r :: rs) = r :: keepFirst (rs.filter (fun x => !(sameEff x r))) := by
  rw [keepFirst]

/-- The accumulator-based dedup of the source equals the spec's
first-occurrence-wins description. -/
lemma foldl_dedupStep_eq_keepFirst (rs : List Result) :
    ∀ acc : List Result,
      rs.foldl dedupStep acc =
        acc ++ keepFirst (rs.filter (fun r => !(acc.find? (fun v => sameEff v r)).isSome)) := by
  induction rs with
  | nil => intro acc; simp [keepFirst]
  | cons cur rest ih =>
    intro acc
    rw [List.foldl_cons]
    rcases hf : (acc.find? (fun v => sameEff v cur)).isSome with _ | _
    · rw [dedupStep_neg hf]
      rw [ih (acc ++ [cur]), List.append_assoc, List.singleton_append]
      rw [List.filter_cons_of_pos (by rw [hf]; rfl), keepFirst_cons, List.filter_filter]
      have hfe : ∀ x ∈ rest, (!(List.find? (fun v => sameEff v x) (acc ++ [cur])).isSome)
          = (!sameEff x cur && !(List.find? (fun v => sameEff v x) acc).isSome) := by
        intro x _
        rw [find?_isSome_eq_any, find?_isSome_eq_any, List.any_append, List.any_cons,
          List.any_nil, Bool.not_or, Bool.or_false, sameEff_comm cur x, Bool.and_comm]
      rw [List.filter_congr hfe]
    · rw [dedupStep_pos hf]
      rw [ih acc]
      congr 2
      rw [List.filter_cons_of_neg (by rw [hf]; simp)]

lemma dedup_eq_keepFirst (rs : List Result) : dedup rs = keepFirst rs := by
  have := foldl_dedupStep_eq_keepFirst rs []
  simpa [dedup, List.filter_true] using this

/-! ### Lemmas about the label-skipping `while` loop -/

lemma skipUsed_step_mem {cl labels : List Char} {i : Nat} (hi : i < labels.length)
    (hm : labels.get ⟨i, hi⟩ ∈ cl) : skipUsed cl labels i = skipUsed cl labels (i + 1) := by
  unfold skipUsed
  have hf : labels.length - i = (labels.length - (i + 1)) + 1 := by omega
  rw [hf]
  conv_lhs => rw [skipUsedAux]
  rw [dif_pos hi, if_pos hm]

lemma skipUsed_step_free {cl labels : List Char} {i : Nat} (hi : i < labels.length)
    (hm : labels.get ⟨i, hi⟩ ∉ cl) : skipUsed cl labels i = i := by
  unfold skipUsed
  have hf : labels.length - i = (labels.length - (i + 1)) + 1 := by omega
  rw [hf]
  conv_lhs => rw [skipUsedAux]
  rw [dif_pos hi, if_neg hm]

lemma skipUsed_stop {cl labels : List Char} {i : Nat} (hi : labels.length ≤ i) :
    skipUsed cl labels i = i := by
  unfold skipUsed
  rw [Nat.sub_eq_zero_of_le hi]
  rfl

/-- The index returned by the skipping loop never points at a label that is
already in use. -/
lemma skipUsed_not_mem (cl labels : List Char) (i j : Nat)
    (hj : skipUsed cl labels i = j) (h : j < labels.length) :
    labels.get ⟨j, h⟩ ∉ cl := by
  by_cases hi : i < labels.length
  · by_cases hm : labels.get ⟨i, hi⟩ ∈ cl
    · exact skipUsed_not_mem cl labels (i + 1) j
        (by rw [← skipUsed_step_mem hi hm]; exact hj) h
    · rw [skipUsed_step_free hi hm] at hj
      subst hj
      exact hm
  · rw [skipUsed_stop (by omega)] at hj
    subst hj
    exact absurd h hi
termination_by labels.length - i

lemma get_not_mem_take {labels : List Char} (hnd : labels.Nodup) {k : Nat}
    (hk : k < labels.length) : labels.get ⟨k, hk⟩ ∉ labels.take k := by
  have hsplit : labels.take k ++ labels.drop k = labels := List.take_append_drop k labels
  have hnd2 : (labels.take k ++ labels.drop k).Nodup := by rw [hsplit]; exact hnd
  rw [List.nodup_append] at hnd2
  have hmem : labels.get ⟨k, hk⟩ ∈ labels.drop k := by
    rw [List.drop_eq_getElem_cons hk]
    exact List.mem_cons_self _ _
  exact fun hmemT => hnd2.2.2 hmemT hmem

lemma get_mem_take {labels : List Char} {i k : Nat} (hik : i < k) (hk : k ≤ labels.length)
    (hi : i < labels.length) : labels.get ⟨i, hi⟩ ∈ labels.take k := by
  have h1 : i < (labels.take k).length := by
    rw [List.length_take]
    omega
  have h2 : (labels.take k).get ⟨i, h1⟩ = labels.get ⟨i, hi⟩ := by
    simp [List.get_eq_getElem, List.getElem_take]
  rw [← h2]
  exact List.get_mem _ _ _

/-- Starting anywhere at or before `k` with exactly the first `k` labels in
use, the skipping loop stops at `k` (labels are pairwise distinct). -/
lemma skipUsed_take (labels : List Char) (hnd : labels.Nodup) :
    ∀ (d i k : Nat), i + d = k → i ≤ k → k ≤ labels.length →
      skipUsed (labels.take k) labels i = k := by
  intro d
  induction d with
  | zero =>
    intro i k hik _ _
    have hik2 : i = k := by omega
    subst hik2
    by_cases hi : i < labels.length
    · exact skipUsed_step_free hi (get_not_mem_take hnd hi)
    · exact skipUsed_stop (by omega)
  | succ d ih =>
    intro i k hik _ hk
    have hi : i < labels.length := by omega
    have hmem : labels.get ⟨i, hi⟩ ∈ labels.take k := get_mem_take (by omega) hk hi
    rw [skipUsed_step_mem hi hmem]
    exact ih (i + 1) k (by omega) (by omega) hk

lemma take_concat_get (l : List Char) (k : Nat) (h : k < l.length) :
    l.take k ++ [l.get ⟨k, h⟩] = l.take (k + 1) := by
  rw [List.take_succ, List.getElem?_eq_getElem h]
  rfl

/-- With an empty Label Cache, the assignment loop labels the entries in
order with the successive unused alphabet characters and silently drops every
entry after the alphabet is exhausted. -/
lemma assignLoop_nil_cache (labels : List Char) (hnd : labels.Nodup) :
    ∀ (rs : List Result) (acc : List Target) (k i : Nat), i ≤ k → k ≤ labels.length →
      assignLoop [] (some labels) rs acc (labels.take k) i =
        acc ++ List.zipWith freshTarget rs (labels.drop k) := by
  intro rs
  induction rs with
  | nil =>
    intro acc k i _ _
    simp [assignLoop]
  | cons entry rest ih =>
    intro acc k i hik hk
    simp only [assignLoop, List.find?_nil]
    by_cases hklen : k < labels.length
    · have hilen : i < labels.length := by omega
      rw [if_pos hilen]
      have hj : skipUsed (labels.take k) labels i = k :=
        skipUsed_take labels hnd (k - i) i k (by omega) hik hk
      simp only [hj]
      rw [dif_pos hklen]
      rw [take_concat_get labels k hklen]
      rw [ih (acc ++ [freshTarget entry (labels.get ⟨k, hklen⟩)]) (k + 1) k
        (by omega) (by omega)]
      rw [List.drop_eq_getElem_cons hklen, List.zipWith_cons_cons,
        List.append_assoc, List.singleton_append]
      rfl
    · have hkeq : k = labels.length := by omega
      by_cases hilen : i < labels.length
      · rw [if_pos hilen]
        have hj : skipUsed (labels.take k) labels i = k :=
          skipUsed_take labels hnd (k - i) i k (by omega) hik hk
        simp only [hj]
        rw [dif_neg (by omega)]
        rw [ih acc k k (le_refl k) hk]
        simp [hkeq, List.drop_length]
      · rw [if_neg hilen]
        rw [ih acc k i hik hk]
        simp [hkeq, List.drop_length]

/-! ### Invariants of the assignment loop -/

lemma tripleTR_eq_eff {t : Target} {r : Result} (h : tripleT t = tripleR r) :
    effT t = effR r := by
  simp only [tripleT, tripleR, Prod.ext_iff] at h
  simp only [effT, effR, Prod.ext_iff, h.1, h.2.1, h.2.2, and_self]

lemma eq_of_pairwise_effT {l : List Target} (hp : l.Pairwise (fun a b => effT a ≠ effT b))
    {a b : Target} (ha : a ∈ l) (hb : b ∈ l) (he : effT a = effT b) : a = b := by
  by_contra hne
  have hsym : Symmetric (fun a b : Target => effT a ≠ effT b) := fun x y h he2 => h he2.symm
  exact List.Pairwise.forall hsym hp ha hb hne he

/-- Master invariant of the assignment loop: if the labels of `out` are
pairwise distinct and all marked used in `cachedLabels`, the cache labels are
pairwise distinct, marked used, and determine the identity triple of any
`out` element sharing their label, and the pending entries have
pairwise-distinct effective positions disjoint from those of `out`, then the
final list has pairwise-distinct labels and pairwise-distinct effective
positions. -/
lemma assignLoop_inv (cache : List Target) (labels? : Option (List Char))
    (hc : (cache.map Target.char).Nodup) :
    ∀ (rs : List Result) (out : List Target) (cl : List Char) (i : Nat),
      (out.map Target.char).Nodup →
      (∀ t ∈ out, t.char ∈ cl) →
      (∀ c ∈ cache, c.char ∈ cl) →
      (∀ t ∈ out, ∀ c ∈ cache, c.char = t.char → tripleT c = tripleT t) →
      out.Pairwise (fun a b => effT a ≠ effT b) →
      (∀ t ∈ out, ∀ r ∈ rs, effT t ≠ effR r) →
      rs.Pairwise (fun a b => effR a ≠ effR b) →
      ((assignLoop cache labels? rs out cl i).map Target.char).Nodup ∧
        (assignLoop cache labels? rs out cl i).Pairwise (fun a b => effT a ≠ effT b) := by
  intro rs
  induction rs with
  | nil =>
    intro out cl i h1 _ _ _ h5 _ _
    exact ⟨h1, h5⟩
  | cons entry rest ih =>
    intro out cl i h1 h2 h3 h4 h5 h6 h7
    have h6r : ∀ t ∈ out, ∀ r ∈ rest, effT t ≠ effR r :=
      fun t ht r hr => h6 t ht r (List.mem_cons_of_mem _ hr)
    have h7h : ∀ r ∈ rest, effR entry ≠ effR r := (List.pairwise_cons.mp h7).1
    rcases hfind : cache.find? (fun c => matchesCache entry c) with _ | c0
    · rcases labels? with _ | labels
      · simp only [assignLoop, hfind]
        exact ih out cl i h1 h2 h3 h4 h5 h6r (List.Pairwise.of_cons h7)
      · simp only [assignLoop, hfind]
        by_cases hil : i < labels.length
        · rw [if_pos hil]
          by_cases hjl : skipUsed cl labels i < labels.length
          · rw [dif_pos hjl]
            have hfree : labels.get ⟨skipUsed cl labels i, hjl⟩ ∉ cl :=
              skipUsed_not_mem cl labels i _ rfl hjl
            apply ih
            · rw [List.map_append, List.nodup_append]
              refine ⟨h1, List.nodup_singleton _, ?_⟩
              intro x hx hx2
              rw [List.map_singleton, List.mem_singleton] at hx2
              rcases List.mem_map.mp hx with ⟨t, ht, hteq⟩
              rw [char_fresh] at hx2
              rw [hx2] at hteq
              exact hfree (hteq ▸ h2 t ht)
            · intro t ht
              rcases List.mem_append.mp ht with ht2 | ht2
              · exact List.mem_append_left _ (h2 t ht2)
              · rw [List.mem_singleton] at ht2
                rw [ht2, char_fresh]
                exact List.mem_append_right _ (List.mem_singleton_self _)
            · intro c hcm
              exact List.mem_append_left _ (h3 c hcm)
            · intro t ht c hcm hchar
              rcases List.mem_append.mp ht with ht2 | ht2
              · exact h4 t ht2 c hcm hchar
              · rw [List.mem_singleton] at ht2
                rw [ht2, char_fresh] at hchar
                exact absurd (hchar ▸ h3 c hcm) hfree
            · rw [List.pairwise_append]
              refine ⟨h5, List.pairwise_singleton _ _, ?_⟩
              intro a ha b hb
              rw [List.mem_singleton] at hb
              rw [hb, effT_fresh]
              exact h6 a ha entry (List.mem_cons_self _ _)
            · intro t ht r hr
              rcases List.mem_append.mp ht with ht2 | ht2
              · exact h6r t ht2 r hr
              · rw [List.mem_singleton] at ht2
                rw [ht2, effT_fresh]
                exact h7h r hr
            · exact List.Pairwise.of_cons h7
          · rw [dif_neg hjl]
            exact ih out cl _ h1 h2 h3 h4 h5 h6r (List.Pairwise.of_cons h7)
        · rw [if_neg hil]
          exact ih out cl i h1 h2 h3 h4 h5 h6r (List.Pairwise.of_cons h7)
    · simp only [assignLoop, hfind]
      have hc0mem : c0 ∈ cache := List.mem_of_find?_eq_some hfind
      have hc0p : matchesCache entry c0 = true := List.find?_some hfind
      have hc0triple : tripleT c0 = tripleR entry := matchesCache_iff.mp hc0p
      apply ih
      · rw [List.map_append, List.nodup_append]
        refine ⟨h1, List.nodup_singleton _, ?_⟩
        intro x hx hx2
        rw [List.map_singleton, List.mem_singleton] at hx2
        rcases List.mem_map.mp hx with ⟨t, ht, hteq⟩
        rw [char_carry] at hx2
        rw [hx2] at hteq
        have htr : tripleT c0 = tripleT t := h4 t ht c0 hc0mem hteq.symm
        have heff : effT t = effR entry := tripleTR_eq_eff (htr ▸ hc0triple)
        exact h6 t ht entry (List.mem_cons_self _ _) heff
      · intro t ht
        rcases List.mem_append.mp ht with ht2 | ht2
        · exact h2 t ht2
        · rw [List.mem_singleton] at ht2
          rw [ht2, char_carry]
          exact h3 c0 hc0mem
      · exact h3
      · intro t ht c hcm hchar
        rcases List.mem_append.mp ht with ht2 | ht2
        · exact h4 t ht2 c hcm hchar
        · rw [List.mem_singleton] at ht2
          rw [ht2] at hchar ⊢
          rw [char_carry] at hchar
          have hcc0 : c = c0 := List.inj_on_of_nodup_map hc hcm hc0mem hchar
          rw [hcc0, tripleT_carry]
          exact hc0triple
      · rw [List.pairwise_append]
        refine ⟨h5, List.pairwise_singleton _ _, ?_⟩
        intro a ha b hb
        rw [List.mem_singleton] at hb
        rw [hb, effT_carry]
        exact h6 a ha entry (List.mem_cons_self _ _)
      · intro t ht r hr
        rcases List.mem_append.mp ht with ht2 | ht2
        · exact h6r t ht2 r hr
        · rw [List.mem_singleton] at ht2
          rw [ht2, effT_carry]
          exact h7h r hr
      · exact List.Pairwise.of_cons h7

/-- Where each element of the assignment loop's output comes from: it was
already in `out`, or it corresponds to a pending entry — carrying the label
of the cache target found for that entry, or freshly labeled from the
alphabet when the cache lookup failed. -/
lemma mem_assignLoop (cache : List Target) (labels? : Option (List Char)) :
    ∀ (rs : List Result) (out : List Target) (cl : List Char) (i : Nat) (t : Target),
      t ∈ assignLoop cache labels? rs out cl i →
      t ∈ out ∨ ∃ r ∈ rs, tripleT t = tripleR r ∧
        ((∃ c, cache.find? (fun x => matchesCache r x) = some c ∧ t.char = c.char) ∨
          (cache.find? (fun x => matchesCache r x) = none ∧
            ∃ ls, labels? = some ls ∧ t.char ∈ ls)) := by
  intro rs
  induction rs with
  | nil =>
    intro out cl i t ht
    exact Or.inl ht
  | cons entry rest ih =>
    intro out cl i t ht
    have lift : ∀ (out2 : List Target) (cl2 : List Char) (i2 : Nat),
        t ∈ assignLoop cache labels? rest out2 cl2 i2 →
        t ∈ out2 ∨ ∃ r ∈ entry :: rest, tripleT t = tripleR r ∧
          ((∃ c, cache.find? (fun x => matchesCache r x) = some c ∧ t.char = c.char) ∨
            (cache.find? (fun x => matchesCache r x) = none ∧
              ∃ ls, labels? = some ls ∧ t.char ∈ ls)) := by
      intro out2 cl2 i2 hmem
      rcases ih out2 cl2 i2 t hmem with hin | ⟨r, hr, hrest⟩
      · exact Or.inl hin
      · exact Or.inr ⟨r, List.mem_cons_of_mem _ hr, hrest⟩
    rcases hfind : cache.find? (fun c => matchesCache entry c) with _ | c0
    · rcases hls : labels? with _ | labels
      · rw [hls] at ht lift
        simp only [assignLoop, hfind] at ht
        exact lift out cl i ht
      · rw [hls] at ht lift
        simp only [assignLoop, hfind] at ht
        by_cases hil : i < labels.length
        · rw [if_pos hil] at ht
          by_cases hjl : skipUsed cl labels i < labels.length
          · rw [dif_pos hjl] at ht
            rcases lift _ _ _ ht with h | h
            · rcases List.mem_append.mp h with h2 | h2
              · exact Or.inl h2
              · rw [List.mem_singleton] at h2
                refine Or.inr ⟨entry, List.mem_cons_self _ _, ?_,
                  Or.inr ⟨hfind, labels, rfl, ?_⟩⟩
                · rw [h2, tripleT_fresh]
                · rw [h2, char_fresh]
                  exact List.get_mem _ _ _
            · exact Or.inr h
          · rw [dif_neg hjl] at ht
            exact lift _ _ _ ht
        · rw [if_neg hil] at ht
          exact lift _ _ _ ht
    · simp only [assignLoop, hfind] at ht
      rcases lift _ _ _ ht with h | h
      · rcases List.mem_append.mp h with h2 | h2
        · exact Or.inl h2
        · rw [List.mem_singleton] at h2
          refine Or.inr ⟨entry, List.mem_cons_self _ _, ?_, Or.inl ⟨c0, hfind, ?_⟩⟩
          · rw [h2, tripleT_carry]
          · rw [h2, char_carry]
      · exact Or.inr h

/-! ### getTarget-level lemmas -/

lemma getTarget_empty (conf : Config) (words : List Word)
    (labels? : Option (List Char)) (cache : List Target) :
    getTarget conf words "" labels? cache = ([], cache) := by
  unfold getTarget
  rw [if_pos rfl]

lemma getTarget_results (conf : Config) (words : List Word) (input : String)
    (labels? : Option (List Char)) (cache : List Target) (h : ¬ input = "") :
    getTarget conf words input labels? cache =
      (assignLoop cache labels?
        (dedup ((if "fzf" ∈ conf.matchers then conf.fzf input words else []) ++
          (if "kensaku" ∈ conf.matchers then conf.kensaku input words else [])))
        [] (cache.map (fun t => t.char)) 0,
      assignLoop cache labels?
        (dedup ((if "fzf" ∈ conf.matchers then conf.fzf input words else []) ++
          (if "kensaku" ∈ conf.matchers then conf.kensaku input words else [])))
        [] (cache.map (fun t => t.char)) 0) := by
  unfold getTarget
  rw [if_neg h]

/-- Any `getTarget` output, from a cache whose labels are pairwise distinct,
has pairwise-distinct labels and pairwise-distinct effective positions. -/
lemma getTarget_inv (conf : Config) (words : List Word) (input : String)
    (labels? : Option (List Char)) (cache : List Target)
    (hc : (cache.map Target.char).Nodup) :
    ((getTarget conf words input labels? cache).1.map Target.char).Nodup ∧
      (getTarget conf words input labels? cache).1.Pairwise (fun a b => effT a ≠ effT b) := by
  by_cases hi : input = ""
  · rw [hi, getTarget_empty]
    exact ⟨List.nodup_nil, List.Pairwise.nil⟩
  · rw [getTarget_results conf words input labels? cache hi]
    refine assignLoop_inv cache labels? hc _ [] _ 0 ?_ ?_ ?_ ?_ ?_ ?_ ?_
    · exact List.nodup_nil
    · intro t ht
      cases ht
    · intro c hcm
      exact List.mem_map_of_mem _ hcm
    · intro t ht
      cases ht
    · exact List.Pairwise.nil
    · intro t ht
      cases ht
    · exact dedup_pairwise _

/-- Every `getTarget` output element corresponds to a result entry: its
label was carried from the cache target found for that entry, or freshly
taken from the alphabet when the cache lookup failed. -/
lemma getTarget_origin (conf : Config) (words : List Word) (input : String)
    (labels? : Option (List Char)) (cache : List Target) (t : Target)
    (ht : t ∈ (getTarget conf words input labels? cache).1) :
    ∃ r, tripleT t = tripleR r ∧
      ((∃ c, cache.find? (fun x => matchesCache r x) = some c ∧ t.char = c.char) ∨
        (cache.find? (fun x => matchesCache r x) = none ∧
          ∃ ls, labels? = some ls ∧ t.char ∈ ls)) := by
  by_cases hi : input = ""
  · rw [hi, getTarget_empty] at ht
    cases ht
  · rw [getTarget_results conf words input labels? cache hi] at ht
    rcases mem_assignLoop cache labels? _ [] _ 0 t ht with h | ⟨r, _, hr2, hr3⟩
    · cases h
    · exact ⟨r, hr2, hr3⟩

/-- Every output label is a cache label or an alphabet label. -/
lemma getTarget_char_mem (conf : Config) (words : List Word) (input : String)
    (labels : List Char) (cache : List Target) (t : Target)
    (ht : t ∈ (getTarget conf words input (some labels) cache).1)
    (hcl : ∀ c ∈ cache, c.char ∈ labels) : t.char ∈ labels := by
  rcases getTarget_origin conf words input (some labels) cache t ht with ⟨r, _, hcase⟩
  rcases hcase with ⟨c, hfind, hchar⟩ | ⟨_, ls, hls, hmem⟩
  · rw [hchar]
    exact hcl c (List.mem_of_find?_eq_some hfind)
  · have : labels = ls := Option.some_inj.mp hls
    rw [this]
    exact hmem

/-! ### Concrete fixtures for the witnesses -/

def wordFoo : Word := { text := "foo", pos := { line := 3, col := 1 } }

def resultFoo : Result := { item := wordFoo, start := 0, «end» := 1, score := 10 }

def wordBar : Word := { text := "bar", pos := { line := 5, col := 4 } }

def resultBar : Result := { item := wordBar, start := 0, «end» := 1, score := 5 }

def wordBaz : Word := { text := "baz", pos := { line := 7, col := 2 } }

def resultBaz : Result := { item := wordBaz, start := 1, «end» := 2, score := 3 }

def targetFooA : Target :=
  { text := "foo", start := 0, «end» := 1, pos := { line := 3, col := 1 },
    score := 10, char := 'a' }

/-- A configuration whose fzf matcher always reports the single hit
`resultFoo`. -/
def confFoo : Config :=
  { fzf := fun _ _ => [resultFoo], kensaku := fun _ _ => [],
    matchers := ["fzf"], labels := ['a', 's'], autoJump := false }

/-- A configuration with no enabled matcher. -/
def confNone : Config :=
  { fzf := fun _ _ => [], kensaku := fun _ _ => [],
    matchers := [], labels := ['a'], autoJump := false }

/-- Both matchers enabled, with the configured list naming kensaku first. -/
def confMix : Config :=
  { fzf := fun _ _ => [resultFoo], kensaku := fun _ _ => [resultBar],
    matchers := ["kensaku", "fzf"], labels := ['a', 's'], autoJump := false }

/-- fzf reports three hits but the alphabet has only two labels. -/
def confThree : Config :=
  { fzf := fun _ _ => [resultFoo, resultBar, resultBaz], kensaku := fun _ _ => [],
    matchers := ["fzf"], labels := ['a', 's'], autoJump := false }

/-! ### The claims -/

/-- Claim C4: for every word set, matcher configuration, label alphabet and
Label Cache state, `getTarget` on the empty input returns the empty Target
list immediately (independently of the matcher functions, which the
universal quantification over `conf` makes arbitrary), leaving the cache
untouched. -/
theorem c4_empty_input (conf : Config) (words : List Word)
    (labels? : Option (List Char)) (cache : List Target) :
    getTarget conf words "" labels? cache = ([], cache) :=
  getTarget_empty conf words labels? cache

/-- Claim C1: label stability — with no cache reset in between (the second
computation's cache is exactly the one written by the first), if the same
identity triple `(pos.line, pos.col, start)` appears in the outputs of two
consecutive `getTarget` computations, the Target carrying that triple has the
same label `char` in both outputs; chains such as typing "f", "fo", "foo"
are repeated applications of this step. -/
theorem c1_label_stability (conf : Config) (words : List Word)
    (input1 input2 : String) (labels? : Option (List Char)) (cache0 : List Target)
    (hc : (cache0.map Target.char).Nodup) (t1 t2 : Target)
    (h1 : t1 ∈ (getTarget conf words input1 labels? cache0).1)
    (h2 : t2 ∈ (getTarget conf words input2 labels?
      ((getTarget conf words input1 labels? cache0).2)).1)
    (h3 : tripleT t1 = tripleT t2) : t1.char = t2.char := by
  by_cases hi1 : input1 = ""
  · rw [hi1, getTarget_empty] at h1
    cases h1
  · have hcacheq : (getTarget conf words input1 labels? cache0).2 =
        (getTarget conf words input1 labels? cache0).1 := by
      rw [getTarget_results conf words input1 labels? cache0 hi1]
    rw [hcacheq] at h2
    have hinv := getTarget_inv conf words input1 labels? cache0 hc
    rcases getTarget_origin conf words input2 labels? _ t2 h2 with ⟨r, hr2, hcase⟩
    have hmt1 : matchesCache r t1 = true := matchesCache_iff.mpr (h3.trans hr2)
    rcases hcase with ⟨c, hfind, hchar⟩ | ⟨hnone, _⟩
    · have hcmem : c ∈ (getTarget conf words input1 labels? cache0).1 :=
        List.mem_of_find?_eq_some hfind
      have hcp : matchesCache r c = true := List.find?_some hfind
      have hctriple : tripleT c = tripleR r := matchesCache_iff.mp hcp
      have heq : c = t1 := eq_of_pairwise_effT hinv.2 hcmem h1
        (tripleT_eq_effT (hctriple.trans (h3.trans hr2).symm))
      rw [hchar, heq]
    · exact absurd hmt1 (List.find?_eq_none.mp hnone t1 h1)

/-- Witness for C1 at a concrete session: word "foo" at (3,1), inputs "f"
then "fo", cache starting empty; the target keeps label 'a'. -/
theorem c1_label_stability_witness :
    ((([] : List Target).map Target.char).Nodup ∧
      targetFooA ∈ (getTarget confFoo [wordFoo] "f" (some confFoo.labels) []).1 ∧
      targetFooA ∈ (getTarget confFoo [wordFoo] "fo" (some confFoo.labels)
        ((getTarget confFoo [wordFoo] "f" (some confFoo.labels) []).2)).1 ∧
      tripleT targetFooA = tripleT targetFooA) ∧
    targetFooA.char = targetFooA.char :=
  ⟨⟨by decide, by decide, by decide, rfl⟩,
    c1_label_stability confFoo [wordFoo] "f" "fo" (some confFoo.labels) [] (by decide)
      targetFooA targetFooA (by decide) (by decide) rfl⟩

/-- Claim C10: every `getTarget` output (from a cache whose labels are
pairwise distinct — in particular any cache reachable from the empty one)
has pairwise-distinct label chars and pairwise-distinct effective match
positions, so a label keypress resolves at most one Target. -/
theorem c10_uniqueness (conf : Config) (words : List Word) (input : String)
    (labels? : Option (List Char)) (cache : List Target)
    (hc : (cache.map Target.char).Nodup) :
    ((getTarget conf words input labels? cache).1.map Target.char).Nodup ∧
      (getTarget conf words input labels? cache).1.Pairwise (fun a b => effT a ≠ effT b) ∧
      ∀ t ∈ (getTarget conf words input labels? cache).1,
        ∀ u ∈ (getTarget conf words input labels? cache).1, t.char = u.char → t = u := by
  have h := getTarget_inv conf words input labels? cache hc
  exact ⟨h.1, h.2, fun t ht u hu hc2 => List.inj_on_of_nodup_map h.1 ht hu hc2⟩

/-- Witness for C10 at a concrete input: three matcher hits, alphabet of two
labels, empty cache. -/
theorem c10_uniqueness_witness :
    ((([] : List Target).map Target.char).Nodup) ∧
    (((getTarget confThree [wordFoo] "f" (some confThree.labels) []).1.map
        Target.char).Nodup ∧
      (getTarget confThree [wordFoo] "f" (some confThree.labels) []).1.Pairwise
        (fun a b => effT a ≠ effT b) ∧
      ∀ t ∈ (getTarget confThree [wordFoo] "f" (some confThree.labels) []).1,
        ∀ u ∈ (getTarget confThree [wordFoo] "f" (some confThree.labels) []).1,
          t.char = u.char → t = u) :=
  ⟨by decide,
    c10_uniqueness confThree [wordFoo] "f" (some confThree.labels) [] (by decide)⟩

lemma nodup_subset_length_le {l m : List Char} (hn : l.Nodup)
    (hs : ∀ a ∈ l, a ∈ m) : l.length ≤ m.length := by
  have h1 : l.toFinset.card = l.length := List.toFinset_card_of_nodup hn
  have h2 : l.toFinset ⊆ m.toFinset := by
    intro a ha
    rw [List.mem_toFinset] at ha ⊢
    exact hs a ha
  have h3 : m.toFinset.card ≤ m.length := m.toFinset_card_le
  have h4 := Finset.card_le_card h2
  omega

/-- The number of labeled Targets can never exceed the alphabet size, from
any cache whose labels are pairwise distinct and drawn from the alphabet. -/
lemma getTarget_length_le (conf : Config) (words : List Word) (input : String)
    (labels : List Char) (cache : List Target)
    (hnd : (cache.map Target.char).Nodup) (hsub : ∀ c ∈ cache, c.char ∈ labels) :
    (getTarget conf words input (some labels) cache).1.length ≤ labels.length := by
  have hinv := getTarget_inv conf words input (some labels) cache hnd
  have hsub2 : ∀ ch ∈ (getTarget conf words input (some labels) cache).1.map Target.char,
      ch ∈ labels := by
    intro ch hch
    rcases List.mem_map.mp hch with ⟨t, ht, rfl⟩
    exact getTarget_char_mem conf words input labels cache t ht hsub
  have := nodup_subset_length_le hinv.1 hsub2
  rwa [List.length_map] at this

/-- Claim C2: alphabet exhaustion — with a (pairwise-distinct) alphabet of
size N, an empty Label Cache (a fresh session), and a deduplicated list of
M > N simultaneous matches, `getTarget` outputs exactly the earliest N
entries in aggregator order, labeled with the successive alphabet
characters, silently dropping the remaining M − N; moreover (last conjunct)
from any reachable cache the number of simultaneously labeled Targets never
exceeds the alphabet size. -/
theorem c2_alphabet_exhaustion (conf : Config) (words : List Word) (input : String)
    (hne : input ≠ "") (hnd : conf.labels.Nodup)
    (hdist : ((if "fzf" ∈ conf.matchers then conf.fzf input words else []) ++
      (if "kensaku" ∈ conf.matchers then conf.kensaku input words else [])).Pairwise
      (fun a b => effR a ≠ effR b))
    (hM : conf.labels.length <
      ((if "fzf" ∈ conf.matchers then conf.fzf input words else []) ++
        (if "kensaku" ∈ conf.matchers then conf.kensaku input words else [])).length) :
    (getTarget conf words input (some conf.labels) []).1 =
      List.zipWith freshTarget
        ((if "fzf" ∈ conf.matchers then conf.fzf input words else []) ++
          (if "kensaku" ∈ conf.matchers then conf.kensaku input words else []))
        conf.labels ∧
    (getTarget conf words input (some conf.labels) []).1.length = conf.labels.length ∧
    ∀ cache : List Target, (cache.map Target.char).Nodup →
      (∀ c ∈ cache, c.char ∈ conf.labels) →
      (getTarget conf words input (some conf.labels) cache).1.length ≤
        conf.labels.length := by
  have hout : (getTarget conf words input (some conf.labels) []).1 =
      List.zipWith freshTarget
        ((if "fzf" ∈ conf.matchers then conf.fzf input words else []) ++
          (if "kensaku" ∈ conf.matchers then conf.kensaku input words else []))
        conf.labels := by
    rw [getTarget_results conf words input (some conf.labels) [] hne,
      dedup_eq_self hdist]
    exact assignLoop_nil_cache conf.labels hnd
      ((if "fzf" ∈ conf.matchers then conf.fzf input words else []) ++
        (if "kensaku" ∈ conf.matchers then conf.kensaku input words else []))
      [] 0 0 (le_refl 0) (Nat.zero_le _)
  refine ⟨hout, ?_, ?_⟩
  · rw [hout, List.length_zipWith]
    omega
  · intro cache hnd hsub
    exact getTarget_length_le conf words input conf.labels cache hnd hsub

/-- Witness for C2: three fzf hits against a two-letter alphabet keep only
the first two hits, labeled 'a' and 's'. -/
theorem c2_alphabet_exhaustion_witness :
    (("f" : String) ≠ "" ∧ confThree.labels.Nodup ∧
      ((if "fzf" ∈ confThree.matchers then confThree.fzf "f" [wordFoo] else []) ++
        (if "kensaku" ∈ confThree.matchers then confThree.kensaku "f" [wordFoo]
          else [])).Pairwise (fun a b => effR a ≠ effR b) ∧
      confThree.labels.length <
        ((if "fzf" ∈ confThree.matchers then confThree.fzf "f" [wordFoo] else []) ++
          (if "kensaku" ∈ confThree.matchers then confThree.kensaku "f" [wordFoo]
            else [])).length) ∧
    ((getTarget confThree [wordFoo] "f" (some confThree.labels) []).1 =
      List.zipWith freshTarget
        ((if "fzf" ∈ confThree.matchers then confThree.fzf "f" [wordFoo] else []) ++
          (if "kensaku" ∈ confThree.matchers then confThree.kensaku "f" [wordFoo]
            else []))
        confThree.labels ∧
    (getTarget confThree [wordFoo] "f" (some confThree.labels) []).1.length =
      confThree.labels.length ∧
    ∀ cache : List Target, (cache.map Target.char).Nodup →
      (∀ c ∈ cache, c.char ∈ confThree.labels) →
      (getTarget confThree [wordFoo] "f" (some confThree.labels) cache).1.length ≤
        confThree.labels.length) :=
  ⟨⟨by decide, by decide, by decide, by decide⟩,
    c2_alphabet_exhaustion confThree [wordFoo] "f" (by decide) (by decide) (by decide)
      (by decide)⟩

/-- Counterexample to claim C3 as stated: with both matchers enabled and the
configured matcher list naming kensaku first, the source still aggregates
fzf results first, so the output differs from the claim's
configured-priority-order aggregation (`getTargetSpecOrdered`). -/
theorem c3_counterexample :
    (getTarget confMix [wordFoo, wordBar] "x" (some confMix.labels) []).1 ≠
      (getTargetSpecOrdered confMix [wordFoo, wordBar] "x" (some confMix.labels) []).1 := by
  decide

/-- Claim C3 (amended): for every non-empty input, `getTarget` concatenates
the enabled matchers' outputs in the fixed order fzf-then-kensaku (the
configured list only determines enablement, not priority — last conjunct),
preserving each matcher's internal ranking, then performs an
order-preserving first-occurrence-wins dedup on the effective match position
(`keepFirst`, a sublist of the concatenation: no re-sorting by score), and
labels the surviving entries. -/
theorem c3_aggregation_dedup (conf : Config) (words : List Word) (input : String)
    (labels? : Option (List Char)) (cache : List Target) (hne : input ≠ "") :
    (getTarget conf words input labels? cache).1 =
      assignLoop cache labels?
        (keepFirst ((if "fzf" ∈ conf.matchers then conf.fzf input words else []) ++
          (if "kensaku" ∈ conf.matchers then conf.kensaku input words else [])))
        [] (cache.map (fun t => t.char)) 0 ∧
    List.Sublist
      (keepFirst ((if "fzf" ∈ conf.matchers then conf.fzf input words else []) ++
        (if "kensaku" ∈ conf.matchers then conf.kensaku input words else [])))
      ((if "fzf" ∈ conf.matchers then conf.fzf input words else []) ++
        (if "kensaku" ∈ conf.matchers then conf.kensaku input words else [])) ∧
    ∀ matchers2 : List String,
      ("fzf" ∈ matchers2 ↔ "fzf" ∈ conf.matchers) →
      ("kensaku" ∈ matchers2 ↔ "kensaku" ∈ conf.matchers) →
      (getTarget { conf with matchers := matchers2 } words input labels? cache).1 =
        (getTarget conf words input labels? cache).1 := by
  refine ⟨?_, ?_, ?_⟩
  · rw [getTarget_results conf words input labels? cache hne, dedup_eq_keepFirst]
  · rw [← dedup_eq_keepFirst]
    exact dedup_sublist _
  · intro matchers2 hf hk
    rw [getTarget_results conf words input labels? cache hne,
      getTarget_results { conf with matchers := matchers2 } words input labels? cache hne]
    have hfe : (if "fzf" ∈ matchers2 then conf.fzf input words else []) =
        (if "fzf" ∈ conf.matchers then conf.fzf input words else []) := by
      by_cases h : "fzf" ∈ conf.matchers
      · rw [if_pos h, if_pos (hf.mpr h)]
      · rw [if_neg h, if_neg (fun h2 => h (hf.mp h2))]
    have hke : (if "kensaku" ∈ matchers2 then conf.kensaku input words else []) =
        (if "kensaku" ∈ conf.matchers then conf.kensaku input words else []) := by
      by_cases h : "kensaku" ∈ conf.matchers
      · rw [if_pos h, if_pos (hk.mpr h)]
      · rw [if_neg h, if_neg (fun h2 => h (hk.mp h2))]
    rw [hfe, hke]

/-- Witness for C3 (amended) at a concrete input with both matchers
enabled. -/
theorem c3_aggregation_dedup_witness :
    (("x" : String) ≠ "") ∧
    ((getTarget confMix [wordFoo, wordBar] "x" (some confMix.labels) []).1 =
      assignLoop [] (some confMix.labels)
        (keepFirst ((if "fzf" ∈ confMix.matchers then confMix.fzf "x" [wordFoo, wordBar]
            else []) ++
          (if "kensaku" ∈ confMix.matchers then confMix.kensaku "x" [wordFoo, wordBar]
            else [])))
        [] (([] : List Target).map (fun t => t.char)) 0 ∧
    List.Sublist
      (keepFirst ((if "fzf" ∈ confMix.matchers then confMix.fzf "x" [wordFoo, wordBar]
          else []) ++
        (if "kensaku" ∈ confMix.matchers then confMix.kensaku "x" [wordFoo, wordBar]
          else [])))
      ((if "fzf" ∈ confMix.matchers then confMix.fzf "x" [wordFoo, wordBar] else []) ++
        (if "kensaku" ∈ confMix.matchers then confMix.kensaku "x" [wordFoo, wordBar]
          else [])) ∧
    ∀ matchers2 : List String,
      ("fzf" ∈ matchers2 ↔ "fzf" ∈ confMix.matchers) →
      ("kensaku" ∈ matchers2 ↔ "kensaku" ∈ confMix.matchers) →
      (getTarget { confMix with matchers := matchers2 } [wordFoo, wordBar] "x"
          (some confMix.labels) []).1 =
        (getTarget confMix [wordFoo, wordBar] "x" (some confMix.labels) []).1) :=
  ⟨by decide,
    c3_aggregation_dedup confMix [wordFoo, wordBar] "x" (some confMix.labels) []
      (by decide)⟩

/-! ### The interactive loop claims -/

lemma find?_labels_none {labels : List Char} {code : Nat}
    (h : ∀ l ∈ labels, l.toNat ≠ code) :
    labels.find? (fun label => label.toNat == code) = none := by
  rw [List.find?_eq_none]
  intro l hl hbeq
  exact h l hl (by simpa using hbeq)

lemma executeStep_ne13 (conf : Config) (words : List Word) (s : LoopState) (code : Nat)
    (h : code ≠ 13) :
    executeStep conf words s code = dispatchCode conf words s
      (getTarget conf words s.input (some conf.labels) s.cache).1
      (getTarget conf words s.input (some conf.labels) s.cache).2 code := by
  simp only [executeStep]
  rw [if_neg h]

lemma dispatchCode_bs (conf : Config) (words : List Word) (s : LoopState)
    (targets cache1 : List Target) (code : Nat) (h27 : code ≠ 27)
    (hfind : ¬ ((conf.labels.find? (fun label => label.toNat == code)).isSome = true))
    (hbs : code = 128 ∨ code = 8) :
    dispatchCode conf words s targets cache1 code =
      StepRes.cont ⟨strDropLast s.input, []⟩ := by
  simp only [dispatchCode]
  rw [if_neg h27, if_neg hfind, if_pos hbs]

lemma dispatchCode_cw (conf : Config) (words : List Word) (s : LoopState)
    (targets cache1 : List Target) (code : Nat) (h27 : code ≠ 27)
    (hfind : ¬ ((conf.labels.find? (fun label => label.toNat == code)).isSome = true))
    (hnbs : ¬ (code = 128 ∨ code = 8)) (h23 : code = 23) :
    dispatchCode conf words s targets cache1 code = StepRes.cont ⟨"", []⟩ := by
  simp only [dispatchCode]
  rw [if_neg h27, if_neg hfind, if_neg hnbs, if_pos h23]

lemma dispatchCode_label (conf : Config) (words : List Word) (s : LoopState)
    (targets cache1 : List Target) (code : Nat) (h27 : code ≠ 27)
    (hfind : (conf.labels.find? (fun label => label.toNat == code)).isSome = true) :
    dispatchCode conf words s targets cache1 code =
      (match targets.find? (fun t => t.char == Char.ofNat code) with
        | some target => StepRes.exitJump target
        | none => StepRes.cont ⟨s.input, cache1⟩) := by
  simp only [dispatchCode]
  rw [if_neg h27, if_pos hfind]

/-- A printable key that is not a label character reaches the
character-append branch of the dispatch chain. -/
lemma executeStep_printable (conf : Config) (words : List Word) (s : LoopState)
    (code : Nat) (h1 : 32 ≤ code) (h2 : code ≤ 126)
    (h3 : ∀ l ∈ conf.labels, l.toNat ≠ code) :
    executeStep conf words s code =
      (match conf.autoJump,
          (getTarget conf words (s.input.push (Char.ofNat code)) (some conf.labels)
            (getTarget conf words s.input (some conf.labels) s.cache).2).1 with
        | true, [t] => StepRes.exitJump t
        | _, _ => StepRes.cont ⟨s.input.push (Char.ofNat code),
            (getTarget conf words (s.input.push (Char.ofNat code)) (some conf.labels)
              (getTarget conf words s.input (some conf.labels) s.cache).2).2⟩) := by
  have hfind : conf.labels.find? (fun label => label.toNat == code) = none :=
    find?_labels_none h3
  have hneg : ¬ ((conf.labels.find? (fun label => label.toNat == code)).isSome = true) := by
    rw [hfind]
    simp
  simp only [executeStep, dispatchCode]
  rw [if_neg (by omega : ¬ code = 13), if_neg (by omega : ¬ code = 27), if_neg hneg,
    if_neg (by omega : ¬ (code = 128 ∨ code = 8)), if_neg (by omega : ¬ code = 23),
    if_pos (⟨h1, h2⟩ : 32 ≤ code ∧ code ≤ 126)]

/-- Counterexample to claim C5 as stated: with alphabet `['a']` and no
matcher enabled, the printable code 97 (`'a'`) is a label key, so the
dispatch takes the label branch: the step leaves the input empty instead of
appending `'a'` as the claim requires for every printable code. -/
theorem c5_counterexample :
    executeStep confNone [] ⟨"", []⟩ 97 = StepRes.cont ⟨"", []⟩ ∧
      (StepRes.cont ⟨"", []⟩ : StepRes) ≠ StepRes.cont ⟨"a", []⟩ := by
  decide

/-- Claim C5 (amended): in state `Active(input)`, for every printable event
code in 32..126 that does not equal the first character of a configured
label, the decoded character is appended to the input and the Targets are
immediately recomputed; if auto-jump is enabled and the recomputation yields
exactly one Target, the loop exits jumping to it without re-rendering;
otherwise the loop continues with the updated input. -/
theorem c5_auto_jump (conf : Config) (words : List Word) (s : LoopState)
    (code : Nat) (h1 : 32 ≤ code) (h2 : code ≤ 126)
    (h3 : ∀ l ∈ conf.labels, l.toNat ≠ code) :
    (∀ t, conf.autoJump = true →
      (getTarget conf words (s.input.push (Char.ofNat code)) (some conf.labels)
        (getTarget conf words s.input (some conf.labels) s.cache).2).1 = [t] →
      executeStep conf words s code = StepRes.exitJump t) ∧
    ((conf.autoJump = false ∨
      (getTarget conf words (s.input.push (Char.ofNat code)) (some conf.labels)
        (getTarget conf words s.input (some conf.labels) s.cache).2).1.length ≠ 1) →
      executeStep conf words s code = StepRes.cont
        ⟨s.input.push (Char.ofNat code),
          (getTarget conf words (s.input.push (Char.ofNat code)) (some conf.labels)
            (getTarget conf words s.input (some conf.labels) s.cache).2).2⟩) := by
  rw [executeStep_printable conf words s code h1 h2 h3]
  constructor
  · intro t hAJ hsingle
    rw [hAJ, hsingle]
  · intro hcase
    rcases hcase with hAJ | hlen
    · rw [hAJ]
    · rcases hl : (getTarget conf words (s.input.push (Char.ofNat code)) (some conf.labels)
        (getTarget conf words s.input (some conf.labels) s.cache).2).1 with _ | ⟨t, ts⟩
      · cases conf.autoJump <;> rfl
      · rcases ts with _ | ⟨u, us⟩
        · exact absurd (by rw [hl]; rfl) hlen
        · cases conf.autoJump <;> rfl

/-- Witness for C5 (amended): code 98 (`'b'`), not a label of `['a']`, gets
appended and the loop continues. -/
theorem c5_auto_jump_witness :
    (32 ≤ 98 ∧ 98 ≤ 126 ∧ ∀ l ∈ confNone.labels, l.toNat ≠ 98) ∧
      executeStep confNone [] ⟨"", []⟩ 98 = StepRes.cont
        ⟨("" : String).push (Char.ofNat 98),
          (getTarget confNone [] (("" : String).push (Char.ofNat 98)) (some confNone.labels)
            (getTarget confNone [] "" (some confNone.labels) []).2).2⟩ :=
  ⟨⟨by decide, by decide, by decide⟩,
    (c5_auto_jump confNone [] ⟨"", []⟩ 98 (by decide) (by decide) (by decide)).2
      (Or.inl rfl)⟩

/-- Claim C6: on Enter (code 13), if the current Target list is empty the
loop exits without a jump; otherwise the event is treated as a press of the
label char of the first Target (index 0), which jumps to that Target and
exits. (The hypotheses state that the session's labels are the configured
ones and no label is the Escape character.) -/
theorem c6_enter (conf : Config) (words : List Word) (s : LoopState)
    (hlab : ∀ t ∈ s.cache, t.char ∈ conf.labels)
    (hesc : ∀ l ∈ conf.labels, l.toNat ≠ 27) :
    ((getTarget conf words s.input (some conf.labels) s.cache).1 = [] →
      executeStep conf words s 13 = StepRes.exitNoJump) ∧
    ∀ t ts, (getTarget conf words s.input (some conf.labels) s.cache).1 = t :: ts →
      executeStep conf words s 13 = StepRes.exitJump t := by
  constructor
  · intro hempty
    simp only [executeStep]
    rw [if_pos trivial, hempty]
  · intro t ts hcons
    have htmem : t ∈ (getTarget conf words s.input (some conf.labels) s.cache).1 := by
      rw [hcons]
      exact List.mem_cons_self _ _
    have hchar : t.char ∈ conf.labels :=
      getTarget_char_mem conf words s.input conf.labels s.cache t htmem hlab
    have hfind : (conf.labels.find? (fun label => label.toNat == t.char.toNat)).isSome
        = true := by
      rw [find?_isSome_eq_any, List.any_eq_true]
      exact ⟨t.char, hchar, by simp⟩
    have hres : (t :: ts).find? (fun x => x.char == Char.ofNat t.char.toNat) = some t :=
      List.find?_cons_of_pos ts (by rw [Char.ofNat_toNat]; exact beq_self_eq_true t.char)
    simp only [executeStep]
    rw [if_pos trivial, hcons]
    show dispatchCode conf words s (t :: ts)
      (getTarget conf words s.input (some conf.labels) s.cache).2 t.char.toNat =
      StepRes.exitJump t
    rw [dispatchCode_label conf words s _ _ _ (hesc t.char hchar) hfind, hres]

/-- Witness for C6: one Target labeled 'a'; Enter jumps to it. -/
theorem c6_enter_witness :
    ((∀ t ∈ ([] : List Target), t.char ∈ confFoo.labels) ∧
      (∀ l ∈ confFoo.labels, l.toNat ≠ 27) ∧
      (getTarget confFoo [wordFoo] "f" (some confFoo.labels) []).1 = targetFooA :: []) ∧
    executeStep confFoo [wordFoo] ⟨"f", []⟩ 13 = StepRes.exitJump targetFooA :=
  ⟨⟨by decide, by decide, by decide⟩,
    (c6_enter confFoo [wordFoo] ⟨"f", []⟩ (by decide) (by decide)).2 targetFooA []
      (by decide)⟩

/-- Claim C7: Backspace (code 8 or 128) empties the Label Cache and drops
the last input character (the empty input stays empty); Clear-word (code 23)
empties the Label Cache and clears the input; in all cases the machine stays
active with no jump, and the session word list (a pure parameter) is
untouched. -/
theorem c7_backspace_clear (conf : Config) (words : List Word) (s : LoopState)
    (hlab : ∀ l ∈ conf.labels, l.toNat ≠ 8 ∧ l.toNat ≠ 128 ∧ l.toNat ≠ 23) :
    executeStep conf words s 8 = StepRes.cont ⟨strDropLast s.input, []⟩ ∧
    executeStep conf words s 128 = StepRes.cont ⟨strDropLast s.input, []⟩ ∧
    executeStep conf words s 23 = StepRes.cont ⟨"", []⟩ ∧
    strDropLast "" = "" := by
  have h8 : ¬ ((conf.labels.find? (fun label => label.toNat == 8)).isSome = true) := by
    rw [find?_labels_none (fun l hl => (hlab l hl).1)]
    simp
  have h128 : ¬ ((conf.labels.find? (fun label => label.toNat == 128)).isSome = true) := by
    rw [find?_labels_none (fun l hl => (hlab l hl).2.1)]
    simp
  have h23 : ¬ ((conf.labels.find? (fun label => label.toNat == 23)).isSome = true) := by
    rw [find?_labels_none (fun l hl => (hlab l hl).2.2)]
    simp
  refine ⟨?_, ?_, ?_, rfl⟩
  · rw [executeStep_ne13 conf words s 8 (by omega)]
    exact dispatchCode_bs conf words s _ _ 8 (by omega) h8 (by omega)
  · rw [executeStep_ne13 conf words s 128 (by omega)]
    exact dispatchCode_bs conf words s _ _ 128 (by omega) h128 (by omega)
  · rw [executeStep_ne13 conf words s 23 (by omega)]
    exact dispatchCode_cw conf words s _ _ 23 (by omega) h23 (by omega) rfl

/-- Witness for C7 at input "ab". -/
theorem c7_backspace_clear_witness :
    (∀ l ∈ confFoo.labels, l.toNat ≠ 8 ∧ l.toNat ≠ 128 ∧ l.toNat ≠ 23) ∧
    (executeStep confFoo [wordFoo] ⟨"ab", []⟩ 8 =
        StepRes.cont ⟨strDropLast "ab", []⟩ ∧
      executeStep confFoo [wordFoo] ⟨"ab", []⟩ 128 =
        StepRes.cont ⟨strDropLast "ab", []⟩ ∧
      executeStep confFoo [wordFoo] ⟨"ab", []⟩ 23 = StepRes.cont ⟨"", []⟩ ∧
      strDropLast "" = "") :=
  ⟨by decide, c7_backspace_clear confFoo [wordFoo] ⟨"ab", []⟩ (by decide)⟩

/-- Claim C8: a key that is the first character of a configured label but
matches no current Target's char is a no-op: no jump, still active, input
unchanged (not appended, although the code may be printable). -/
theorem c8_unresolvable_label (conf : Config) (words : List Word) (s : LoopState)
    (code : Nat) (h13 : code ≠ 13) (h27 : code ≠ 27)
    (hin : ∃ l ∈ conf.labels, l.toNat = code)
    (hnone : ∀ t ∈ (getTarget conf words s.input (some conf.labels) s.cache).1,
      t.char ≠ Char.ofNat code) :
    executeStep conf words s code =
      StepRes.cont ⟨s.input, (getTarget conf words s.input (some conf.labels) s.cache).2⟩ := by
  simp only [executeStep, dispatchCode]
  rw [if_neg h13, if_neg h27]
  have hfind : (conf.labels.find? (fun label => label.toNat == code)).isSome = true := by
    rw [find?_isSome_eq_any, List.any_eq_true]
    rcases hin with ⟨l, hl, hleq⟩
    exact ⟨l, hl, by rw [hleq]; exact beq_self_eq_true code⟩
  rw [if_pos hfind]
  have htnone : (getTarget conf words s.input (some conf.labels) s.cache).1.find?
      (fun x => x.char == Char.ofNat code) = none := by
    rw [List.find?_eq_none]
    intro t ht hbeq
    exact hnone t ht (by simpa using hbeq)
  rw [htnone]

/-- Witness for C8: label key 'a' with no Target on screen. -/
theorem c8_unresolvable_label_witness :
    ((97 : Nat) ≠ 13 ∧ (97 : Nat) ≠ 27 ∧ (∃ l ∈ confNone.labels, l.toNat = 97) ∧
      ∀ t ∈ (getTarget confNone [] "" (some confNone.labels) []).1,
        t.char ≠ Char.ofNat 97) ∧
    executeStep confNone [] ⟨"", []⟩ 97 =
      StepRes.cont ⟨"", (getTarget confNone [] "" (some confNone.labels) []).2⟩ :=
  ⟨⟨by decide, by decide, by decide, by decide⟩,
    c8_unresolvable_label confNone [] ⟨"", []⟩ 97 (by decide) (by decide) (by decide)
      (by decide)⟩

/-- Claim C9: on every exit of the interactive loop — label-key jump,
auto-jump, Enter, Escape, or an exception raised inside the loop — the
emitted effect trace ends with the full cleanup sequence: delete the
viewport shading matches, unmount all labels/highlights, clear the status
prompt, force a redraw. (Only a run that exhausts its event list while still
blocked on input carries no cleanup suffix, because the session has not
ended.) -/
theorem c9_cleanup (conf : Config) (words : List Word) (events : List Event)
    (h : (executeRun conf words events).2 ≠ Outcome.outOfEvents) :
    ∃ pre, (executeRun conf words events).1 =
      pre ++ [Eff.deleteShade, Eff.unmountAll, Eff.echoEmpty, Eff.redrawFinal] := by
  simp only [executeRun] at h ⊢
  rcases hout : (loopRun conf words events ⟨"", []⟩).2 with _ | _ | _
  · exact ⟨Eff.shade :: (loopRun conf words events ⟨"", []⟩).1, by simp [cleanupEffs]⟩
  · refine ⟨Eff.shade :: ((loopRun conf words events ⟨"", []⟩).1 ++ [Eff.logError]), ?_⟩
    simp [cleanupEffs]
  · rw [hout] at h
    exact absurd rfl h

/-- Witness for C9: a session ended by Escape. -/
theorem c9_cleanup_witness :
    ((executeRun confFoo [wordFoo] [Event.key 27]).2 ≠ Outcome.outOfEvents) ∧
      ∃ pre, (executeRun confFoo [wordFoo] [Event.key 27]).1 =
        pre ++ [Eff.deleteShade, Eff.unmountAll, Eff.echoEmpty, Eff.redrawFinal] :=
  ⟨by decide, c9_cleanup confFoo [wordFoo] [Event.key 27] (by decide)⟩

end FuzzyMotion
